import Mathlib

/-!
Verification of `docusaurus_frontmatter.py` (markdown-summarizer).

The Python program reads a Markdown file, splits an optional `---`-delimited
front-matter header from the body with
`re.match(r'^---\s*\n(.*?)\n---\s*\n(.*)', content, re.DOTALL)`,
parses the header with `yaml.safe_load`, asks a generative backend for a
`description:` line and a `keywords:` line, merges the two generated values
into the header mapping, serializes with
`yaml.dump(..., default_flow_style=False, sort_keys=False)` and writes
`f"---\n{header}---\n\n{body}"` back to the file.

This file gives a shallow embedding of that program.  Pure string processing
(the regex, the response parser, the keyword tokenizer, the merge, the
serializer) is translated function by function from the source.  The two
external libraries are modelled: `yaml.safe_load`/`yaml.dump` by an
executable parser/printer for the plain block-mapping subset the tool itself
reads and writes (scalars, block string lists, `[]`, `''`), and the
generative backend by an explicit outcome value (the text it returned, or
the fact that `generate_front_matter` terminated the process).
-/

/-- Python `\s` on ASCII text: the whitespace class used by `re` and `str.strip`. -/
def pyIsSpace (c : Char) : Bool :=
  c == ' ' || c == '\t' || c == '\n' || c == '\r' || c == '\x0b' || c == '\x0c'

/-- Strip characters satisfying `p` from both ends of a character list
(model of Python `str.strip`). -/
def stripList (p : Char → Bool) (l : List Char) : List Char :=
  ((l.dropWhile p).reverse.dropWhile p).reverse

/-- Model of Python `str.strip()` (no argument: whitespace). -/
def pyStrip (s : String) : String :=
  (stripList pyIsSpace s.toList).asString

/-- Model of Python `str.split(sep)` for a one-character separator: split at
every occurrence, keeping empty pieces (`"".split(',') == ['']`). -/
def splitCharL (sep : Char) : List Char → List (List Char)
  | [] => [[]]
  | c :: t =>
    if c = sep then [] :: splitCharL sep t
    else
      match splitCharL sep t with
      | [] => [[c]]
      | L :: rest => (c :: L) :: rest

/-- `line.split(":", 1)[1]`: everything after the first colon.
Callers only use it on lines that contain a colon. -/
def afterColonL (l : List Char) : List Char :=
  (l.dropWhile (fun c => c != ':')).drop 1

def lowerL (l : List Char) : List Char := l.map Char.toLower

/-- The response-parsing loop of `process_file` (lines 128-135): strip the
response, split into lines, and for each line matching `description:` or
`keywords:` case-insensitively keep the stripped remainder after the first
colon.  Later matches overwrite earlier ones, as in the Python loop. -/
def extractFields (t : String) : String × String :=
  (splitCharL '\n' (stripList pyIsSpace t.toList)).foldl
    (fun acc line =>
      if "description:".toList.isPrefixOf (lowerL line) then
        ((stripList pyIsSpace (afterColonL line)).asString, acc.2)
      else if "keywords:".toList.isPrefixOf (lowerL line) then
        (acc.1, (stripList pyIsSpace (afterColonL line)).asString)
      else acc)
    ("", "")

/-- Lines 140-143: strip one enclosing `[` `]` pair if both are present, split
on commas, and trim each token (`k.strip().strip('"\'')`). -/
def parseKeywords (ks : String) : List String :=
  let l := ks.toList
  let l := if l.head? == some '[' && l.getLast? == some ']' then
             (l.drop 1).dropLast
           else l
  (splitCharL ',' l).map
    (fun k => (stripList (fun c => c == '"' || c == '\'') (stripList pyIsSpace k)).asString)

/-! ## The header mapping

`yaml.safe_load` of the subset the tool reads produces a Python dict whose
insertion order is the document order; `yaml.dump(..., sort_keys=False)`
writes it back in that order.  The dict is modelled as an association list. -/

/-- A YAML value of the shapes the tool reads and writes: a string scalar,
a list of string items, or null (a key with no value). -/
inductive YVal where
  | str (s : String)
  | strList (l : List String)
  | nullY
deriving DecidableEq, Repr

abbrev Header := List (String × YVal)

/-- Ordered dict lookup. -/
def hFind : Header → String → Option YVal
  | [], _ => none
  | (k', v) :: t, k => if k' = k then some v else hFind t k

/-- Python `d[k] = v` on an insertion-ordered dict: an existing key keeps its
position and gets the new value; a new key is appended. -/
def pySet (h : Header) (k : String) (v : YVal) : Header :=
  if h.any (fun p => p.1 = k) then
    h.map (fun p => if p.1 = k then (k, v) else p)
  else h ++ [(k, v)]

/-- Lines 149-150: `front_matter_dict['description'] = description;
front_matter_dict['keywords'] = keywords`. -/
def mergedHeader (h : Header) (d : String) (kws : List String) : Header :=
  pySet (pySet h "description" (YVal.str d)) "keywords" (YVal.strList kws)

/-! ## Serialization (model of `yaml.dump(..., default_flow_style=False,
sort_keys=False)` on the subset of values above) -/

/-- PyYAML prints the empty string as `''` and plain scalars bare. -/
def dumpScalarL (s : String) : List Char :=
  if s.toList.isEmpty then ['\'', '\''] else s.toList

/-- The dumped lines (without trailing newlines) of one header entry. -/
def entryLines : String × YVal → List (List Char)
  | (k, YVal.str s) => [k.toList ++ [':', ' '] ++ dumpScalarL s]
  | (k, YVal.nullY) => [k.toList ++ [':', ' ', 'n', 'u', 'l', 'l']]
  | (k, YVal.strList []) => [k.toList ++ [':', ' ', '[', ']']]
  | (k, YVal.strList l) =>
      (k.toList ++ [':']) :: l.map (fun s => '-' :: ' ' :: dumpScalarL s)

/-- Terminate every line with a newline and concatenate. -/
def joinLines (ls : List (List Char)) : List Char :=
  (ls.map (fun L => L ++ ['\n'])).flatten

def headerLines (h : Header) : List (List Char) :=
  (h.map entryLines).flatten

def yamlDump (h : Header) : String :=
  (joinLines (headerLines h)).asString

/-- Line 153: `f"---\n{new_front_matter_str}---\n\n{main_content}"`. -/
def renderL (h : Header) (body : List Char) : List Char :=
  '-' :: '-' :: '-' :: '\n' ::
    (joinLines (headerLines h) ++ ('-' :: '-' :: '-' :: '\n' :: '\n' :: body))

def render (h : Header) (body : String) : String :=
  (renderL h body.toList).asString

/-! ## The front-matter regex

`re.match(r'^---\s*\n(.*?)\n---\s*\n(.*)', content, re.DOTALL)` with Python
backtracking semantics: the leading `\s*\n` greedily consumes through the
last newline of the whitespace run after `---` (backtracking to earlier
newlines if the rest fails); `(.*?)` takes the shortest text followed by
`\n---` and a whitespace run containing a newline; the second `\s*\n`
consumes through the last newline of that run; `(.*)` takes the rest. -/

/-- The part of a whitespace run after its last `'\n'`. -/
def afterLastNl (w : List Char) : List Char :=
  (w.reverse.takeWhile (fun c => c != '\n')).reverse

/-- Match `\s*\n(.*)` at `l`: succeeds iff the leading whitespace run of `l`
contains a newline, consuming through the last such newline; returns the
final capture group. -/
def sepCheck (l : List Char) : Option (List Char) :=
  let w := l.takeWhile pyIsSpace
  if w.contains '\n' then some (afterLastNl w ++ l.drop w.length) else none

/-- Scan for the lazy group: the shortest prefix followed by `\n---\s*\n`;
returns (group 1, group 2). -/
def findSep : List Char → Option (List Char × List Char)
  | [] => none
  | c :: t =>
    match (if c = '\n' ∧ t.take 3 = ['-', '-', '-'] then sepCheck (t.drop 3) else none) with
    | some g2 => some ([], g2)
    | none => (findSep t).map (fun p => (c :: p.1, p.2))

/-- Backtracking choices for the first `\s*\n`: for each `'\n'` inside the
whitespace run `w` (rightmost first, as the greedy engine tries them), the
text remaining after consuming through that newline. -/
def nlCandidates : List Char → List Char → List (List Char)
  | [], _ => []
  | c :: t, rest => nlCandidates t rest ++ (if c = '\n' then [t ++ rest] else [])

def firstSome (f : α → Option β) : List α → Option β
  | [] => none
  | a :: t =>
    match f a with
    | some b => some b
    | none => firstSome f t

def splitFMList (l : List Char) : Option (List Char × List Char) :=
  match l with
  | '-' :: '-' :: '-' :: t =>
    let w := t.takeWhile pyIsSpace
    firstSome findSep (nlCandidates w (t.drop w.length))
  | _ => none

/-- The whole `re.match` from line 103: `some (group 1, group 2)` on a match,
`none` otherwise. -/
def splitFM (s : String) : Option (String × String) :=
  (splitFMList s.toList).map (fun p => (p.1.asString, p.2.asString))

/-! ## Model of `yaml.safe_load` on the block-mapping subset -/

/-- Split a character list at newlines, keeping empty lines. -/
def splitLinesL (l : List Char) : List (List Char) :=
  splitCharL '\n' l

def isBlankL (L : List Char) : Bool := L.all pyIsSpace

/-- Recognize a `key:` / `key: value` line: no leading whitespace or quote,
a nonempty key before the first colon, and after the colon either nothing or
a space then the (stripped) value text. -/
def keySplitL : List Char → Option (List Char × Option (List Char))
  | [] => none
  | c :: t =>
    if pyIsSpace c || c == '\'' || c == '"' then none
    else
      let k := (c :: t).takeWhile (fun x => x != ':')
      match (c :: t).drop k.length with
      | [] => none
      | _ :: rest =>
        if k.isEmpty then none
        else
          match rest with
          | [] => some (k, none)
          | d :: _ =>
            if d == ' ' then some (k, some (stripList pyIsSpace rest)) else none

/-- A block-sequence item line `- ...`. -/
def isItemL (L : List Char) : Bool := L.take 2 = ['-', ' ']

/-- Remove one pair of enclosing quotes (`'...'` or `"..."`). -/
def unquoteL (l : List Char) : List Char :=
  match l with
  | '\'' :: t => if !t.isEmpty && t.getLast? == some '\'' then t.dropLast else l
  | '"' :: t => if !t.isEmpty && t.getLast? == some '"' then t.dropLast else l
  | _ => l

def containsColonSpace : List Char → Bool
  | [] => false
  | c :: t => (c == ':' && t.head? == some ' ') || containsColonSpace t

/-- Scalar value texts on which real YAML would error or leave our subset
(`mapping values are not allowed here`, flow collections): reject. -/
def badValueL (v : List Char) : Bool :=
  containsColonSpace v || v.getLast? == some ':' ||
    v.head? == some '[' || v.head? == some '{' ||
    (v.head? == some '-' && (v.drop 1).head? == some ' ')

/-- The string of a `- item` line. -/
def itemStr (L : List Char) : String :=
  (unquoteL (stripList pyIsSpace (L.drop 2))).asString

/-- Close a pending `key:` block: no items means null, else a string list. -/
def flushPend : Option (String × List String) → Header
  | none => []
  | some (k, []) => [(k, YVal.nullY)]
  | some (k, its) => [(k, YVal.strList its)]

/-- Parse the non-blank lines of a block mapping, carrying an open `key:`
whose `- item` lines are being collected. -/
def parseLoop : Option (String × List String) → List (List Char) → Option Header
  | pend, [] => some (flushPend pend)
  | pend, L :: rest =>
    if isItemL L then
      match pend with
      | some (k, its) => parseLoop (some (k, its ++ [itemStr L])) rest
      | none => none
    else
      match keySplitL L with
      | none => none
      | some (k, none) =>
        (parseLoop (some (k.asString, [])) rest).map (fun h => flushPend pend ++ h)
      | some (k, some v) =>
        if v = ['[', ']'] then
          (parseLoop none rest).map
            (fun h => flushPend pend ++ (k.asString, YVal.strList []) :: h)
        else if badValueL v then none
        else
          (parseLoop none rest).map
            (fun h => flushPend pend ++ (k.asString, YVal.str (unquoteL v).asString) :: h)

/-- A line that is neither a mapping key line nor a sequence item line. -/
def nonKeyNonItem (L : List Char) : Bool :=
  (keySplitL L).isNone && !(isItemL L)

def joinLinesSp : List (List Char) → List Char
  | [] => []
  | [L] => L
  | L :: rest => L ++ ' ' :: joinLinesSp rest

inductive YamlVal where
  | nullV
  | scalar (s : String)
  | map (h : Header)
deriving DecidableEq, Repr

inductive YamlRes where
  | err
  | val (v : YamlVal)
deriving DecidableEq, Repr

/-- Model of `yaml.safe_load` restricted to the documents the tool handles:
the empty document is null, a document with no key lines is a plain scalar,
and otherwise the text must be a block mapping of plain scalars, block string
lists, `[]` and bare keys; anything else is a parse error. -/
def yamlLoadL (l : List Char) : YamlRes :=
  let ls := (splitLinesL l).filter (fun L => !(isBlankL L))
  if ls.isEmpty then YamlRes.val YamlVal.nullV
  else if ls.all nonKeyNonItem then
    YamlRes.val (YamlVal.scalar
      (unquoteL (stripList pyIsSpace (joinLinesSp (ls.map (stripList pyIsSpace))))).asString)
  else
    match parseLoop none ls with
    | some h => YamlRes.val (YamlVal.map h)
    | none => YamlRes.err

def yamlLoad (s : String) : YamlRes := yamlLoadL s.toList

/-- Line 112: `yaml.safe_load(front_matter_str) or {}` — Python falsy values
(null, the empty string, the empty dict) become the empty dict. -/
def pyOrEmpty : YamlVal → YamlVal
  | YamlVal.nullV => YamlVal.map []
  | YamlVal.scalar s => if s = "" then YamlVal.map [] else YamlVal.scalar s
  | YamlVal.map m => YamlVal.map m

/-- Python truthiness of a header value, for `front_matter_dict.get("description")`. -/
def yvalTruthy : YVal → Bool
  | YVal.str s => s ≠ ""
  | YVal.strList l => !l.isEmpty
  | YVal.nullY => false

/-! ## `process_file` and `main` -/

/-- The observable behavior of `generate_front_matter` for one file: either
it returned response text, or it called `sys.exit(1)` (missing
`GEMINI_API_KEY`, or a non-retryable backend error after the diagnostic
listing of models). -/
inductive GenOutcome where
  | fatal
  | text (t : String)
deriving DecidableEq, Repr

/-- How one `process_file` call ends.  `crashedBeforeRequest` is the uncaught
`AttributeError` of `.get` on a non-dict header (only reachable with
`--ignore-existing`); `crashedAtMerge` is the uncaught `TypeError` of item
assignment on a non-dict header at line 149. -/
inductive FileResult where
  | notFound
  | headerParseError
  | skipped
  | crashedBeforeRequest
  | fatalExit
  | outputParseError
  | crashedAtMerge
  | written (s : String)
deriving DecidableEq, Repr

/-- Lines 125-156: the part of `process_file` after the header was split off. -/
def afterSplit (fm : YamlVal) (body : String) (gen : GenOutcome) : FileResult :=
  match gen with
  | GenOutcome.fatal => FileResult.fatalExit
  | GenOutcome.text t =>
    let fields := extractFields t
    if fields.1 = "" ∨ fields.2 = "" then FileResult.outputParseError
    else
      match fm with
      | YamlVal.map m =>
        FileResult.written (render (mergedHeader m fields.1 (parseKeywords fields.2)) body)
      | _ => FileResult.crashedAtMerge

/-- `process_file(filepath, model_name, ignore_existing)`: `content` is the
file's text (`none` when `open` raises `FileNotFoundError`), `gen` the
behavior of the backend call for this file. -/
def processFile (content : Option String) (gen : GenOutcome) (ignoreExisting : Bool) :
    FileResult :=
  match content with
  | none => FileResult.notFound
  | some fileContent =>
    match splitFM fileContent with
    | some (fmStr, body) =>
      match yamlLoad fmStr with
      | YamlRes.err => FileResult.headerParseError
      | YamlRes.val v =>
        let fm := pyOrEmpty v
        if ignoreExisting then
          match fm with
          | YamlVal.map m =>
            if ((hFind m "description").map yvalTruthy).getD false then FileResult.skipped
            else afterSplit (YamlVal.map m) body gen
          | _ => FileResult.crashedBeforeRequest
        else afterSplit fm body gen
    | none => afterSplit (YamlVal.map []) fileContent gen

/-- Whether the backend request (line 125) was reached. -/
def requestMade : FileResult → Bool
  | FileResult.notFound => false
  | FileResult.headerParseError => false
  | FileResult.skipped => false
  | FileResult.crashedBeforeRequest => false
  | _ => true

/-- The content written to the file, if any. -/
def writtenContent : FileResult → Option String
  | FileResult.written s => some s
  | _ => none

/-- Outcomes that terminate the whole process (a `sys.exit(1)` inside
`generate_front_matter`, or an uncaught exception). -/
def isProcessFatal : FileResult → Bool
  | FileResult.fatalExit => true
  | FileResult.crashedBeforeRequest => true
  | FileResult.crashedAtMerge => true
  | _ => false

/-- The `for filepath in args.markdown_files` loop of `main` (lines 184-185):
per-file results in order, and the process exit status.  A process-fatal
outcome stops the loop with status 1; otherwise the loop finishes and `main`
returns, exiting with status 0. -/
def runBatch (ie : Bool) : List (Option String × GenOutcome) → List FileResult × Nat
  | [] => ([], 0)
  | (c, g) :: rest =>
    let r := processFile c g ie
    if isProcessFatal r then ([r], 1)
    else
      let p := runBatch ie rest
      (r :: p.1, p.2)

/-- The retry loop of `generate_front_matter` (lines 45-67): given the
suggested `retry_delay` of each consecutive transient failure (`none` when
the exception has no such attribute), the seconds slept before each retry.
The fallback delay starts at 1 and is doubled with a 60-second cap only when
it was used. -/
def genSleeps : List (Option Nat) → Nat → List Nat
  | [], _ => []
  | none :: rest, b => b :: genSleeps rest (min (b * 2) 60)
  | some s :: rest, b => s :: genSleeps rest b

/-- The failure paths of `process_file` named by the specification: missing
input file, malformed existing header, fatal backend error, or a model
response whose `description`/`keywords` field is missing or empty after
extraction. -/
def failCond (c : Option String) (g : GenOutcome) : Prop :=
  c = none
  ∨ (∃ s fmStr body, c = some s ∧ splitFM s = some (fmStr, body) ∧ yamlLoad fmStr = YamlRes.err)
  ∨ g = GenOutcome.fatal
  ∨ (∃ t, g = GenOutcome.text t ∧ ((extractFields t).1 = "" ∨ (extractFields t).2 = ""))

/-! ## The plain subset of headers

For the round-trip property the header values must stay inside the subset on
which the modelled `yaml.dump`/`yaml.safe_load` pair is inverse: plain keys
and plain scalar values (PyYAML quotes or escapes anything else). -/

def keyCharB (c : Char) : Bool := c.isAlphanum || c == '_'

def plainKeyB (k : String) : Bool :=
  !k.toList.isEmpty && k.toList.all keyCharB

def scalarCharB (c : Char) : Bool :=
  c.isAlphanum || c == ' ' || c == '.' || c == '_' || c == '-' || c == '/'

def plainScalarB (s : String) : Bool :=
  match s.toList with
  | [] => false
  | c :: t =>
    scalarCharB c && !(c == ' ') && t.all scalarCharB
      && ((c :: t).getLast? != some ' ') && !(c == '-' && t.head? == some ' ')

def valOKB : YVal → Bool
  | YVal.str s => s == "" || plainScalarB s
  | YVal.strList l => l.all (fun s => s == "" || plainScalarB s)
  | YVal.nullY => false

/-- A header inside the subset faithfully round-tripped by the serializer
model: plain keys without duplicates, plain scalar (or empty) values. -/
def SimpleHeader (h : Header) : Prop :=
  (∀ p ∈ h, plainKeyB p.1 = true ∧ valOKB p.2 = true) ∧ (h.map Prod.fst).Nodup

/-- What the scan in `findSep` needs of every dumped header line: nonempty,
newline-free, not starting with whitespace, and starting `- ` if it starts
with a dash at all. -/
def goodLineB (L : List Char) : Bool :=
  !L.isEmpty && !L.contains '\n' && !pyIsSpace (L.headD ' ') &&
    (!(L.headD ' ' == '-') || L.take 2 == ['-', ' '])

/-! ## Helper lemmas -/

theorem hFind_map_set_self (h : Header) (k : String) (v : YVal)
    (hany : h.any (fun p => p.1 = k) = true) :
    hFind (h.map (fun p => if p.1 = k then (k, v) else p)) k = some v := by
  induction h with
  | nil => simp at hany
  | cons p t ih =>
    obtain ⟨a, b⟩ := p
    simp only [List.map_cons]
    by_cases hp : a = k
    · subst hp
      rw [if_pos rfl]
      simp [hFind]
    · rw [if_neg hp]
      have hany' : t.any (fun p => p.1 = k) = true := by
        simp only [List.any_cons, Bool.or_eq_true, decide_eq_true_eq] at hany
        rcases hany with h1 | h2
        · exact absurd h1 hp
        · exact h2
      simp only [hFind]
      rw [if_neg hp]
      exact ih hany'

theorem hFind_append_single_self (h : Header) (k : String) (v : YVal)
    (hno : h.any (fun p => p.1 = k) = false) :
    hFind (h ++ [(k, v)]) k = some v := by
  induction h with
  | nil => simp [hFind]
  | cons p t ih =>
    obtain ⟨a, b⟩ := p
    simp only [List.any_cons, Bool.or_eq_false_iff, decide_eq_false_iff_not] at hno
    simp only [List.cons_append, hFind]
    rw [if_neg hno.1]
    exact ih (by simpa using hno.2)

theorem hFind_pySet_self (h : Header) (k : String) (v : YVal) :
    hFind (pySet h k v) k = some v := by
  unfold pySet
  split
  · exact hFind_map_set_self h k v (by assumption)
  · next hcond => exact hFind_append_single_self h k v (Bool.not_eq_true _ ▸ hcond)

theorem hFind_map_set_ne (h : Header) (k : String) (v : YVal) (k' : String) (hne : k' ≠ k) :
    hFind (h.map (fun p => if p.1 = k then (k, v) else p)) k' = hFind h k' := by
  induction h with
  | nil => rfl
  | cons p t ih =>
    obtain ⟨a, b⟩ := p
    simp only [List.map_cons]
    by_cases hp : a = k
    · subst hp
      rw [if_pos rfl]
      simp only [hFind]
      rw [if_neg (Ne.symm hne), if_neg (Ne.symm hne)]
      exact ih
    · rw [if_neg hp]
      simp only [hFind]
      by_cases ha : a = k'
      · rw [if_pos ha, if_pos ha]
      · rw [if_neg ha, if_neg ha]
        exact ih

theorem hFind_append_single_ne (h : Header) (k : String) (v : YVal) (k' : String)
    (hne : k' ≠ k) :
    hFind (h ++ [(k, v)]) k' = hFind h k' := by
  induction h with
  | nil =>
    simp only [List.nil_append, hFind]
    rw [if_neg (Ne.symm hne)]
  | cons p t ih =>
    obtain ⟨a, b⟩ := p
    simp only [List.cons_append, hFind]
    by_cases hp : a = k'
    · rw [if_pos hp, if_pos hp]
    · rw [if_neg hp, if_neg hp]
      exact ih

theorem hFind_pySet_ne (h : Header) (k : String) (v : YVal) (k' : String) (hne : k' ≠ k) :
    hFind (pySet h k v) k' = hFind h k' := by
  unfold pySet
  split
  · exact hFind_map_set_ne h k v k' hne
  · exact hFind_append_single_ne h k v k' hne

theorem keys_map_set (h : Header) (k : String) (v : YVal) :
    (h.map (fun p => if p.1 = k then (k, v) else p)).map Prod.fst = h.map Prod.fst := by
  induction h with
  | nil => rfl
  | cons p t ih =>
    obtain ⟨a, b⟩ := p
    by_cases hp : a = k
    · simp [hp, ih]
    · simp [hp, ih]

theorem keys_pySet_filter (h : Header) (k : String) (v : YVal) (P : String → Bool)
    (hP : P k = false) :
    ((pySet h k v).map Prod.fst).filter P = (h.map Prod.fst).filter P := by
  unfold pySet
  split
  · rw [keys_map_set]
  · simp [List.filter_append, hP]

theorem render_eq (h : Header) (b : String) :
    render h b = "---\n" ++ yamlDump h ++ "---\n\n" ++ b := by
  apply String.ext
  simp [render, renderL, yamlDump, List.asString, String.data_append]

theorem afterSplit_written (fm : YamlVal) (body : String) (g : GenOutcome) (s : String)
    (hw : afterSplit fm body g = FileResult.written s) :
    ∃ t, g = GenOutcome.text t ∧ (extractFields t).1 ≠ "" ∧ (extractFields t).2 ≠ "" := by
  cases g with
  | fatal => exact absurd hw (by simp [afterSplit])
  | text t =>
    refine ⟨t, rfl, ?_⟩
    by_cases hf : (extractFields t).1 = "" ∨ (extractFields t).2 = ""
    · exact absurd hw (by simp [afterSplit, hf])
    · push_neg at hf
      exact hf

/-! ## Claim theorems -/

/-- C8: keyword parsing strips one optional enclosing bracket pair, splits on
commas, and trims whitespace and quotes from each token, so `"[a, \"b\", c]"`
and `"a, b, c"` both yield `["a","b","c"]`. -/
theorem c8_keyword_idempotence :
    parseKeywords "[a, \"b\", c]" = ["a", "b", "c"]
    ∧ parseKeywords "a, b, c" = ["a", "b", "c"] := by
  constructor <;> decide

theorem minPow2Cap (k : Nat) : min (min (2 ^ k) 60 * 2) 60 = min (2 ^ (k + 1)) 60 := by
  rcases le_total (2 ^ k) 60 with hle | hge
  · rw [min_eq_left hle, pow_succ]
  · have h1 : (60 : Nat) ≤ 2 ^ (k + 1) :=
      le_trans hge (Nat.pow_le_pow_right (by norm_num) (Nat.le_succ k))
    rw [min_eq_right hge, min_eq_right h1]
    omega

theorem genSleeps_replicate (n k : Nat) :
    genSleeps (List.replicate n none) (min (2 ^ k) 60) =
      (List.range n).map (fun i => min (2 ^ (k + i)) 60) := by
  induction n generalizing k with
  | zero => rfl
  | succ n ih =>
    rw [List.replicate_succ]
    show min (2 ^ k) 60 ::
        genSleeps (List.replicate n none) (min (min (2 ^ k) 60 * 2) 60) = _
    rw [minPow2Cap, ih (k + 1), List.range_succ_eq_map, List.map_cons, List.map_map]
    simp only [List.cons.injEq]
    refine ⟨by simp, ?_⟩
    apply List.map_congr_left
    intro i _
    have harith : k + 1 + i = k + (i + 1) := by omega
    simp [Function.comp, harith]

/-- C9: on consecutive transient failures the generator retries every time
(one sleep per failure, never giving up), sleeping the backend-suggested
delay when present, and otherwise the fallback delay whose n-th value (on a
run of suggestion-less failures) is `min(2^(n-1), 60)` seconds. -/
theorem c9_retry_backoff :
    (∀ n : Nat, genSleeps (List.replicate n none) 1 =
        (List.range n).map (fun i => min (2 ^ i) 60))
    ∧ (∀ (fs : List (Option Nat)) (i s : Nat),
        fs[i]? = some (some s) → (genSleeps fs 1)[i]? = some s)
    ∧ (∀ (fs : List (Option Nat)) (b : Nat), (genSleeps fs b).length = fs.length) := by
  have hsug : ∀ (fs : List (Option Nat)) (b i s : Nat),
      fs[i]? = some (some s) → (genSleeps fs b)[i]? = some s := by
    intro fs
    induction fs with
    | nil => intro b i s h; simp at h
    | cons f t ih =>
      intro b i s h
      cases f with
      | none =>
        cases i with
        | zero => simp at h
        | succ i =>
          simp only [List.getElem?_cons_succ] at h
          simpa only [genSleeps, List.getElem?_cons_succ] using ih _ i s h
      | some x =>
        cases i with
        | zero =>
          simp only [List.getElem?_cons_zero, Option.some.injEq] at h
          simp [genSleeps, h]
        | succ i =>
          simp only [List.getElem?_cons_succ] at h
          simpa only [genSleeps, List.getElem?_cons_succ] using ih _ i s h
  refine ⟨?_, fun fs i s h => hsug fs 1 i s h, ?_⟩
  · intro n
    have h := genSleeps_replicate n 0
    simpa using h
  · intro fs
    induction fs with
    | nil => intro b; rfl
    | cons f t ih =>
      intro b
      cases f <;> simp [genSleeps, ih]

theorem c9_retry_backoff_witness :
    (genSleeps [some 5, none, none] 1)[0]? = some 5 :=
  c9_retry_backoff.2.1 [some 5, none, none] 0 5 rfl

/-- C2: when the content has no leading `---`-delimited block, the whole text
is the body, the header starts empty, and on success the written output is
exactly `---`, the serialized mapping with the two generated fields, `---`, a
blank line, then the original text byte-for-byte. -/
theorem c2_no_front_matter_block (c t d ks : String) (ie : Bool)
    (hsp : splitFM c = none)
    (hf : extractFields t = (d, ks)) (hd : d ≠ "") (hk : ks ≠ "") :
    processFile (some c) (GenOutcome.text t) ie
      = FileResult.written
          ("---\n" ++ yamlDump [("description", YVal.str d),
              ("keywords", YVal.strList (parseKeywords ks))] ++ "---\n\n" ++ c)
    ∧ mergedHeader [] d (parseKeywords ks)
      = [("description", YVal.str d), ("keywords", YVal.strList (parseKeywords ks))] := by
  have hne : ¬(d = "" ∨ ks = "") := by
    intro h
    rcases h with h | h
    · exact hd h
    · exact hk h
  have hm : mergedHeader [] d (parseKeywords ks)
      = [("description", YVal.str d), ("keywords", YVal.strList (parseKeywords ks))] := by
    simp [mergedHeader, pySet]
  constructor
  · simp only [processFile, hsp, afterSplit, hf]
    rw [if_neg hne, hm, render_eq]
  · exact hm

theorem c2_no_front_matter_block_witness :
    processFile (some "hello world") (GenOutcome.text "description: d\nkeywords: [a, b]") false
      = FileResult.written
          ("---\n" ++ yamlDump [("description", YVal.str "d"),
              ("keywords", YVal.strList (parseKeywords "[a, b]"))] ++ "---\n\nhello world") :=
  (c2_no_front_matter_block "hello world" "description: d\nkeywords: [a, b]" "d" "[a, b]"
    false (by decide) (by decide) (by decide) (by decide)).1

/-- C10: a model response whose `keywords:` remainder is exactly `[]` passes
the missing/empty check (applied before bracket stripping) and the file is
written with a keywords list holding a single empty string. -/
theorem c10_empty_bracket_keywords (c t d : String) (ie : Bool)
    (hsp : splitFM c = none) (hf : extractFields t = (d, "[]")) (hd : d ≠ "") :
    parseKeywords "[]" = [""]
    ∧ processFile (some c) (GenOutcome.text t) ie
        = FileResult.written (render (mergedHeader [] d [""]) c) := by
  have hkw : parseKeywords "[]" = [""] := by decide
  have hne : ¬(d = "" ∨ ("[]" : String) = "") := by
    intro h
    rcases h with h | h
    · exact hd h
    · exact absurd h (by decide)
  refine ⟨hkw, ?_⟩
  simp only [processFile, hsp, afterSplit, hf]
  rw [if_neg hne, hkw]

theorem c10_empty_bracket_keywords_witness :
    processFile (some "body text") (GenOutcome.text "description: d\nkeywords: []") false
      = FileResult.written (render (mergedHeader [] "d" [""]) "body text") :=
  (c10_empty_bracket_keywords "body text" "description: d\nkeywords: []" "d" false
    (by decide) (by decide) (by decide)).2

/-- C7: with `--ignore-existing`, a file with a valid header whose
`description` is a non-empty string is skipped: no backend request, no write,
content unchanged. -/
theorem c7_ignore_existing_skips (c fmStr body s : String) (m : Header) (g : GenOutcome)
    (hsp : splitFM c = some (fmStr, body))
    (hld : yamlLoad fmStr = YamlRes.val (YamlVal.map m))
    (hfd : hFind m "description" = some (YVal.str s)) (hs : s ≠ "") :
    processFile (some c) g true = FileResult.skipped
    ∧ requestMade (processFile (some c) g true) = false
    ∧ writtenContent (processFile (some c) g true) = none := by
  have htr : yvalTruthy (YVal.str s) = true := by
    simp [yvalTruthy, hs]
  have h : processFile (some c) g true = FileResult.skipped := by
    simp only [processFile, hsp, hld, pyOrEmpty, hfd, Option.map_some', htr, Option.getD_some,
      if_true]
  exact ⟨h, by rw [h]; rfl, by rw [h]; rfl⟩

theorem c7_ignore_existing_skips_witness :
    processFile (some "---\ndescription: x\n---\nbody") GenOutcome.fatal true
      = FileResult.skipped :=
  (c7_ignore_existing_skips "---\ndescription: x\n---\nbody" "description: x" "body" "x"
    [("description", YVal.str "x")] GenOutcome.fatal
    (by decide) (by decide) (by decide) (by decide)).1

/-- C6 (amended): a leading block whose enclosed text raises a YAML parse
error is reported and aborts that file with no backend request and no write;
enclosed text that parses successfully to a non-mapping value is not caught
at this stage (see the counterexample). -/
theorem c6_yaml_error_aborts (c fmStr body : String) (g : GenOutcome) (ie : Bool)
    (hsp : splitFM c = some (fmStr, body)) (herr : yamlLoad fmStr = YamlRes.err) :
    processFile (some c) g ie = FileResult.headerParseError
    ∧ requestMade (processFile (some c) g ie) = false
    ∧ writtenContent (processFile (some c) g ie) = none := by
  have h : processFile (some c) g ie = FileResult.headerParseError := by
    simp only [processFile, hsp, herr]
  exact ⟨h, by rw [h]; rfl, by rw [h]; rfl⟩

theorem c6_yaml_error_aborts_witness :
    processFile (some "---\na: b: c\n---\nbody") (GenOutcome.text "x") false
      = FileResult.headerParseError :=
  (c6_yaml_error_aborts "---\na: b: c\n---\nbody" "a: b: c" "body" (GenOutcome.text "x") false
    (by decide) (by decide)).1

/-- C6 counterexample: `hello` between the delimiters is valid YAML that is
not a structured mapping; the code reports no parse error, makes the backend
request, and dies in the merge (uncaught `TypeError` at line 149) instead of
aborting just that file. -/
theorem c6_scalar_header_counterexample :
    yamlLoad "hello" = YamlRes.val (YamlVal.scalar "hello")
    ∧ splitFM "---\nhello\n---\nbody" = some ("hello", "body")
    ∧ processFile (some "---\nhello\n---\nbody")
        (GenOutcome.text "description: d\nkeywords: x") false = FileResult.crashedAtMerge
    ∧ requestMade FileResult.crashedAtMerge = true
    ∧ processFile (some "---\nhello\n---\nbody")
        (GenOutcome.text "description: d\nkeywords: x") false ≠ FileResult.headerParseError := by
  refine ⟨by decide, by decide, by decide, by decide, by decide⟩

/-- C3: the file is written only after generation and response parsing fully
succeed; on the named failure paths (missing file, malformed header, fatal
backend error, missing/empty field after extraction) nothing is written. -/
theorem c3_write_only_on_success :
    (∀ (c : Option String) (g : GenOutcome) (ie : Bool),
        failCond c g → writtenContent (processFile c g ie) = none)
    ∧ (∀ (c : Option String) (g : GenOutcome) (ie : Bool) (s : String),
        processFile c g ie = FileResult.written s →
        ∃ t, g = GenOutcome.text t
          ∧ (extractFields t).1 ≠ "" ∧ (extractFields t).2 ≠ "") := by
  have part2 : ∀ (c : Option String) (g : GenOutcome) (ie : Bool) (s : String),
      processFile c g ie = FileResult.written s →
      ∃ t, g = GenOutcome.text t ∧ (extractFields t).1 ≠ "" ∧ (extractFields t).2 ≠ "" := by
    intro c g ie s hw
    cases c with
    | none => exact absurd hw (by simp [processFile])
    | some fc =>
      unfold processFile at hw
      dsimp only at hw
      iterate 6 (all_goals try split at hw)
      all_goals
        first
          | exact absurd hw (by simp)
          | exact afterSplit_written _ _ _ _ hw
  refine ⟨?_, part2⟩
  intro c g ie hfc
  rcases hfc with hnone | ⟨s, fmStr, body, hc, hsp, herr⟩ | hg | ⟨t, hg, hempty⟩
  · subst hnone; rfl
  · subst hc
    simp only [processFile, hsp, herr]
    rfl
  · subst hg
    cases hres : processFile c GenOutcome.fatal ie <;>
      first
        | rfl
        | (obtain ⟨t, ht, -, -⟩ := part2 _ _ _ _ hres; exact GenOutcome.noConfusion ht)
  · subst hg
    cases hres : processFile c (GenOutcome.text t) ie <;>
      first
        | rfl
        | (obtain ⟨t', ht', h1, h2⟩ := part2 _ _ _ _ hres
           ; injection ht' with ht'
           ; subst ht'
           ; rcases hempty with he | he
           ; exact absurd he h1
           ; exact absurd he h2)

theorem c3_write_only_on_success_witness :
    failCond none GenOutcome.fatal
    ∧ writtenContent (processFile none GenOutcome.fatal false) = none :=
  ⟨Or.inl rfl, c3_write_only_on_success.1 none GenOutcome.fatal false (Or.inl rfl)⟩

/-- C5 (amended): the batch loop prints per-file errors (missing file, header
parse error, malformed model output) and continues, finishing with exit
status 0 — provided no file hits a process-fatal condition; a missing API
key, a non-retryable backend error (`sys.exit(1)` inside
`generate_front_matter`) or an uncaught exception terminates the whole run
with a nonzero status, leaving later files unprocessed. -/
theorem c5_batch_continues_amended :
    (∀ (files : List (Option String × GenOutcome)) (ie : Bool),
        (∀ p ∈ files, isProcessFatal (processFile p.1 p.2 ie) = false) →
        runBatch ie files = (files.map (fun p => processFile p.1 p.2 ie), 0))
    ∧ (∀ (c : Option String) (g : GenOutcome)
        (rest : List (Option String × GenOutcome)) (ie : Bool),
        isProcessFatal (processFile c g ie) = true →
        runBatch ie ((c, g) :: rest) = ([processFile c g ie], 1)) := by
  constructor
  · intro files ie h
    induction files with
    | nil => rfl
    | cons p rest ih =>
      obtain ⟨c, g⟩ := p
      have h1 := h (c, g) (List.mem_cons_self _ _)
      have h2 := ih (fun q hq => h q (List.mem_cons_of_mem _ hq))
      simp [runBatch, h1, h2]
  · intro c g rest ie h
    simp [runBatch, h]

theorem c5_batch_continues_amended_witness :
    runBatch false
        [(none, GenOutcome.text "x"), (some "---\na: b: c\n---\nb", GenOutcome.text "y")]
      = ([(none, GenOutcome.text "x"),
          (some "---\na: b: c\n---\nb", GenOutcome.text "y")].map
            (fun p => processFile p.1 p.2 false), 0) :=
  c5_batch_continues_amended.1
    [(none, GenOutcome.text "x"), (some "---\na: b: c\n---\nb", GenOutcome.text "y")] false
    (by decide)

/-- C5 counterexample: a batch whose first file hits a non-retryable backend
error exits with status 1 (not 0) and never processes the second file, even
though the second file would have been processed successfully. -/
theorem c5_exit_counterexample :
    (runBatch false
        [(some "file one body", GenOutcome.fatal),
         (some "file two body", GenOutcome.text "description: d\nkeywords: x")]).2 = 1
    ∧ (runBatch false
        [(some "file one body", GenOutcome.fatal),
         (some "file two body", GenOutcome.text "description: d\nkeywords: x")]).1
      = [FileResult.fatalExit]
    ∧ processFile (some "file two body")
        (GenOutcome.text "description: d\nkeywords: x") false
      = FileResult.written "---\ndescription: d\nkeywords:\n- x\n---\n\nfile two body" := by
  refine ⟨by decide, by decide, by decide⟩

/-- C1: after a successful update of a file with a valid existing header, the
written header mapping holds `description` and `keywords` with the newly
generated values, every other pre-existing key is still present with its
unchanged value, and the other keys keep their original relative order (the
serializer writes entries in list order). -/
theorem c1_existing_header_update (c fmStr body t d ks : String) (h0 : Header)
    (hsp : splitFM c = some (fmStr, body))
    (hld : yamlLoad fmStr = YamlRes.val (YamlVal.map h0))
    (hf : extractFields t = (d, ks)) (hd : d ≠ "") (hk : ks ≠ "") :
    processFile (some c) (GenOutcome.text t) false
      = FileResult.written (render (mergedHeader h0 d (parseKeywords ks)) body)
    ∧ hFind (mergedHeader h0 d (parseKeywords ks)) "description" = some (YVal.str d)
    ∧ hFind (mergedHeader h0 d (parseKeywords ks)) "keywords"
        = some (YVal.strList (parseKeywords ks))
    ∧ (∀ k, k ≠ "description" → k ≠ "keywords" →
        hFind (mergedHeader h0 d (parseKeywords ks)) k = hFind h0 k)
    ∧ ((mergedHeader h0 d (parseKeywords ks)).map Prod.fst).filter
          (fun k => !(k == "description") && !(k == "keywords"))
        = (h0.map Prod.fst).filter (fun k => !(k == "description") && !(k == "keywords")) := by
  have hne : ¬(d = "" ∨ ks = "") := by
    intro h
    rcases h with h | h
    · exact hd h
    · exact hk h
  refine ⟨?_, ?_, ?_, ?_, ?_⟩
  · simp only [processFile, hsp, hld, pyOrEmpty, Bool.false_eq_true, if_false, afterSplit, hf]
    rw [if_neg hne]
  · unfold mergedHeader
    rw [hFind_pySet_ne _ _ _ _ (by decide)]
    exact hFind_pySet_self _ _ _
  · exact hFind_pySet_self _ _ _
  · intro k hkd hkk
    unfold mergedHeader
    rw [hFind_pySet_ne _ _ _ _ hkk, hFind_pySet_ne _ _ _ _ hkd]
  · unfold mergedHeader
    rw [keys_pySet_filter _ _ _ _ (by decide), keys_pySet_filter _ _ _ _ (by decide)]

theorem c1_existing_header_update_witness :
    processFile (some "---\ntitle: T\ndescription: old\n---\nbody")
        (GenOutcome.text "description: new\nkeywords: a, b") false
      = FileResult.written
          (render (mergedHeader [("title", YVal.str "T"), ("description", YVal.str "old")]
            "new" (parseKeywords "a, b")) "body") :=
  (c1_existing_header_update "---\ntitle: T\ndescription: old\n---\nbody"
    "title: T\ndescription: old" "body" "description: new\nkeywords: a, b" "new" "a, b"
    [("title", YVal.str "T"), ("description", YVal.str "old")]
    (by decide) (by decide) (by decide) (by decide) (by decide)).1

/-! ## Character-class facts for the plain subset -/

theorem keyChar_not_space (c : Char) (h : keyCharB c = true) : pyIsSpace c = false := by
  cases hps : pyIsSpace c
  · rfl
  · simp only [pyIsSpace, Bool.or_eq_true, beq_iff_eq] at hps
    rcases hps with ((((rfl | rfl) | rfl) | rfl) | rfl) | rfl <;> exact absurd h (by decide)

theorem keyChar_ne (c : Char) (h : keyCharB c = true) :
    c ≠ ':' ∧ c ≠ '-' ∧ c ≠ '\n' ∧ c ≠ '\'' ∧ c ≠ '"' := by
  refine ⟨?_, ?_, ?_, ?_, ?_⟩ <;> (rintro rfl; exact absurd h (by decide))

theorem scalarChar_ne (c : Char) (h : scalarCharB c = true) :
    c ≠ '\n' ∧ c ≠ ':' ∧ c ≠ '\'' ∧ c ≠ '"' ∧ c ≠ '[' ∧ c ≠ '{' := by
  refine ⟨?_, ?_, ?_, ?_, ?_, ?_⟩ <;> (rintro rfl; exact absurd h (by decide))

theorem scalarChar_space (c : Char) (hsc : scalarCharB c = true) (hsp : pyIsSpace c = true) :
    c = ' ' := by
  simp only [pyIsSpace, Bool.or_eq_true, beq_iff_eq] at hsp
  rcases hsp with ((((rfl | rfl) | rfl) | rfl) | rfl) | rfl
  · rfl
  all_goals exact absurd hsc (by decide)

/-! ## Small list facts -/

theorem takeWhile_append_all {α : Type} (p : α → Bool) (a b : List α)
    (h : ∀ x ∈ a, p x = true) : (a ++ b).takeWhile p = a ++ b.takeWhile p := by
  induction a with
  | nil => simp
  | cons c t ih =>
    rw [List.cons_append, List.takeWhile_cons_of_pos (h c (List.mem_cons_self _ _)),
      ih (fun x hx => h x (List.mem_cons_of_mem _ hx)), List.cons_append]

theorem dropLast_append_ne {α : Type} (a b : List α) (hb : b ≠ []) :
    (a ++ b).dropLast = a ++ b.dropLast := by
  induction a with
  | nil => simp
  | cons c a' ih =>
    have hne : a' ++ b ≠ [] := by
      intro hx
      exact hb (List.append_eq_nil.mp hx).2
    obtain ⟨x, l', hxl⟩ := List.exists_cons_of_ne_nil hne
    rw [List.cons_append, hxl, List.dropLast_cons₂, ← hxl, ih, List.cons_append]

theorem drop_len_takeWhile {α : Type} (p : α → Bool) (l : List α) :
    l.drop (l.takeWhile p).length = l.dropWhile p := by
  induction l with
  | nil => rfl
  | cons c t ih =>
    cases hp : p c
    · rw [List.takeWhile_cons_of_neg (by simp [hp]), List.dropWhile_cons_of_neg (by simp [hp])]
      rfl
    · rw [List.takeWhile_cons_of_pos hp, List.dropWhile_cons_of_pos hp, List.length_cons,
        List.drop_succ_cons]
      exact ih

theorem contains_eq_false_of_forall (l : List Char) (a : Char)
    (h : ∀ x ∈ l, x ≠ a) : l.contains a = false := by
  induction l with
  | nil => rfl
  | cons c t ih =>
    have h1 : (a == c) = false := by
      cases hq : a == c
      · rfl
      · exact absurd (beq_iff_eq.mp hq).symm (h c (List.mem_cons_self _ _))
    show (a == c || t.contains a) = false
    rw [h1, ih (fun x hx => h x (List.mem_cons_of_mem _ hx))]
    rfl

theorem forall_of_contains_eq_false (l : List Char) (a : Char)
    (h : l.contains a = false) : ∀ x ∈ l, x ≠ a := by
  induction l with
  | nil => intro x hx; exact absurd hx (List.not_mem_nil x)
  | cons c t ih =>
    have h' : (a == c || t.contains a) = false := h
    rw [Bool.or_eq_false_iff] at h'
    intro x hx
    rcases List.mem_cons.mp hx with rfl | hx'
    · intro heq
      rw [heq] at h'
      simp at h'
    · exact ih h'.2 x hx'

/-! ## Behavior of the separator scan on rendered files -/

theorem findSep_skip_line (L m : List Char) (h : L.contains '\n' = false) :
    findSep (L ++ m) = (findSep m).map (fun p => (L ++ p.1, p.2)) := by
  induction L with
  | nil =>
    cases hm : findSep m <;> simp [hm]
  | cons c L' ih =>
    have hc : c ≠ '\n' := forall_of_contains_eq_false _ _ h c (List.mem_cons_self _ _)
    have ht : L'.contains '\n' = false :=
      contains_eq_false_of_forall _ _
        (fun x hx => forall_of_contains_eq_false _ _ h x (List.mem_cons_of_mem _ hx))
    show findSep (c :: (L' ++ m)) = _
    simp only [findSep]
    rw [if_neg (fun hand => hc hand.1)]
    rw [ih ht]
    cases hm : findSep m <;> simp [hm]

theorem findSep_at_sep (u g2 : List Char) (hu : sepCheck u = some g2) :
    findSep ('\n' :: '-' :: '-' :: '-' :: u) = some ([], g2) := by
  rw [show findSep ('\n' :: '-' :: '-' :: '-' :: u)
      = (match sepCheck u with
         | some g2 => some (([] : List Char), g2)
         | none => (findSep ('-' :: '-' :: '-' :: u)).map (fun p => ('\n' :: p.1, p.2)))
      from rfl, hu]

theorem findSep_cons_nl_nofire (X : List Char) (h : X.take 3 ≠ ['-', '-', '-']) :
    findSep ('\n' :: X) = (findSep X).map (fun p => ('\n' :: p.1, p.2)) := by
  simp only [findSep]
  rw [if_neg (fun hand => h hand.2)]

theorem joinLines_cons (L : List Char) (ls : List (List Char)) :
    joinLines (L :: ls) = (L ++ ['\n']) ++ joinLines ls := by
  simp [joinLines]

theorem joinLines_cons_ne_nil (L : List Char) (ls : List (List Char)) :
    joinLines (L :: ls) ≠ [] := by
  rw [joinLines_cons]
  intro hx
  have := (List.append_eq_nil.mp hx).1
  exact absurd (List.append_eq_nil.mp this).2 (by simp)

theorem goodLine_ne_nil (L : List Char) (h : goodLineB L = true) : L ≠ [] := by
  simp only [goodLineB, Bool.and_eq_true, Bool.not_eq_true'] at h
  intro hx
  rw [hx] at h
  simp at h

theorem goodLine_no_nl (L : List Char) (h : goodLineB L = true) :
    L.contains '\n' = false := by
  simp only [goodLineB, Bool.and_eq_true, Bool.not_eq_true'] at h
  exact h.1.1.2

theorem take3_ne_dashes (L1 X : List Char) (hgood : goodLineB L1 = true) :
    (L1 ++ X).take 3 ≠ ['-', '-', '-'] := by
  obtain ⟨c1, t1, rfl⟩ := List.exists_cons_of_ne_nil (goodLine_ne_nil L1 hgood)
  simp only [goodLineB, Bool.and_eq_true, Bool.or_eq_true, Bool.not_eq_true'] at hgood
  by_cases hc : c1 = '-'
  · subst hc
    rcases hgood.2 with hne | htk
    · simp at hne
    · have htk2 : (('-' :: t1).take 2) = ['-', ' '] := beq_iff_eq.mp htk
      cases t1 with
      | nil => simp at htk2
      | cons a t1' =>
        have ha : a = ' ' := by
          simp only [List.take, List.cons.injEq] at htk2
          exact htk2.2.1
        subst ha
        intro heq
        simp only [List.cons_append, List.take, List.cons.injEq] at heq
        exact absurd heq.2.1 (by decide)
  · intro heq
    simp only [List.cons_append, List.take, List.cons.injEq] at heq
    exact hc heq.1

theorem sepCheck_sep (body : List Char)
    (hb : (body.takeWhile pyIsSpace).contains '\n' = false) :
    sepCheck ('\n' :: '\n' :: body) = some body := by
  have hw : ('\n' :: '\n' :: body).takeWhile pyIsSpace
      = '\n' :: '\n' :: body.takeWhile pyIsSpace := by
    rw [List.takeWhile_cons_of_pos (by decide), List.takeWhile_cons_of_pos (by decide)]
  have hwnot : ∀ x ∈ (body.takeWhile pyIsSpace).reverse, (x != '\n') = true := by
    intro x hx
    have := forall_of_contains_eq_false _ _ hb x (List.mem_reverse.mp hx)
    simpa using this
  have hafter : afterLastNl ('\n' :: '\n' :: body.takeWhile pyIsSpace)
      = body.takeWhile pyIsSpace := by
    unfold afterLastNl
    rw [show ('\n' :: '\n' :: body.takeWhile pyIsSpace).reverse
        = (body.takeWhile pyIsSpace).reverse ++ ['\n', '\n'] by simp]
    rw [takeWhile_append_all _ _ _ hwnot]
    rw [show (['\n', '\n'] : List Char).takeWhile (fun c => c != '\n') = [] from rfl]
    simp
  simp only [sepCheck, hw]
  rw [if_pos (by simp)]
  rw [hafter]
  congr 1
  rw [show ('\n' :: '\n' :: body).drop ('\n' :: '\n' :: body.takeWhile pyIsSpace).length
      = body.drop (body.takeWhile pyIsSpace).length by simp]
  rw [drop_len_takeWhile]
  exact List.takeWhile_append_dropWhile pyIsSpace body

theorem findSep_join (ls : List (List Char)) (u g2 : List Char)
    (hne : ls ≠ []) (hgood : ∀ L ∈ ls, goodLineB L = true) (hu : sepCheck u = some g2) :
    findSep (joinLines ls ++ ('-' :: '-' :: '-' :: u))
      = some ((joinLines ls).dropLast, g2) := by
  induction ls with
  | nil => exact absurd rfl hne
  | cons L ls' ih =>
    have hLnn : L.contains '\n' = false := goodLine_no_nl L (hgood L (List.mem_cons_self _ _))
    cases ls' with
    | nil =>
      rw [joinLines_cons, show joinLines [] = [] from rfl, List.append_nil, List.append_assoc,
        List.singleton_append]
      rw [findSep_skip_line L _ hLnn, findSep_at_sep u g2 hu]
      simp [List.dropLast_concat]
    | cons L1 ls'' =>
      have hL1 : goodLineB L1 = true := hgood L1 (by simp)
      rw [joinLines_cons, List.append_assoc, List.append_assoc, List.singleton_append]
      rw [findSep_skip_line L _ hLnn]
      have htake : ((joinLines (L1 :: ls'') ++ ('-' :: '-' :: '-' :: u)).take 3)
          ≠ ['-', '-', '-'] := by
        rw [joinLines_cons, List.append_assoc, List.append_assoc]
        exact take3_ne_dashes L1 _ hL1
      rw [findSep_cons_nl_nofire _ htake]
      rw [ih (by simp) (fun L2 h2 => hgood L2 (List.mem_cons_of_mem _ h2))]
      rw [dropLast_append_ne _ _ (joinLines_cons_ne_nil L1 ls'')]
      simp


/-! ## All dumped header lines are good lines -/

theorem goodLineB_intro (L : List Char) (h1 : L ≠ []) (h2 : ∀ c ∈ L, c ≠ '\n')
    (h3 : pyIsSpace (L.headD ' ') = false)
    (h4 : L.headD ' ' = '-' → L.take 2 = ['-', ' ']) : goodLineB L = true := by
  unfold goodLineB
  rw [contains_eq_false_of_forall _ _ h2]
  have hC : L.isEmpty = false := by
    cases L with
    | nil => exact absurd rfl h1
    | cons c t => rfl
  rw [hC, h3]
  by_cases hd : L.headD ' ' = '-'
  · rw [hd, h4 hd]
    simp
  · have : (L.headD ' ' == '-') = false := by
      cases hq : L.headD ' ' == '-'
      · rfl
      · exact absurd (beq_iff_eq.mp hq) hd
    rw [this]
    simp

theorem plainKey_parts (k : String) (hk : plainKeyB k = true) :
    k.toList ≠ [] ∧ ∀ c ∈ k.toList, keyCharB c = true := by
  unfold plainKeyB at hk
  rw [Bool.and_eq_true] at hk
  constructor
  · intro hx
    rw [hx] at hk
    simp at hk
  · exact fun c hc => List.all_eq_true.mp hk.2 c hc

theorem dump_ne_nil (s : String) : dumpScalarL s ≠ [] := by
  unfold dumpScalarL
  split
  · simp
  · next hne =>
    intro hx
    rw [hx] at hne
    simp at hne

theorem plainScalar_parts (s : String) (hp : plainScalarB s = true) :
    ∃ c t, s.toList = c :: t ∧ scalarCharB c = true ∧ (c = ' ' → False)
      ∧ (∀ x ∈ t, scalarCharB x = true)
      ∧ (c :: t).getLast? ≠ some ' '
      ∧ (c = '-' → t.head? ≠ some ' ') := by
  rcases hlist : s.toList with _ | ⟨c, t⟩
  · unfold plainScalarB at hp
    rw [hlist] at hp
    simp at hp
  · unfold plainScalarB at hp
    rw [hlist] at hp
    simp only [Bool.and_eq_true] at hp
    obtain ⟨⟨⟨⟨h1, h2⟩, h3⟩, h4⟩, h5⟩ := hp
    refine ⟨c, t, rfl, h1, ?_, List.all_eq_true.mp h3, ?_, ?_⟩
    · intro hsp
      rw [hsp] at h2
      simp at h2
    · intro hlast
      rw [hlast] at h4
      simp at h4
    · intro hdash hhead
      rw [hdash, hhead] at h5
      simp at h5

theorem dump_mem (s : String) (hok : (s == "" || plainScalarB s) = true) :
    ∀ c ∈ dumpScalarL s, c = '\'' ∨ scalarCharB c = true := by
  have hok' : s = "" ∨ plainScalarB s = true := by simpa using hok
  rcases hok' with he | hp
  · rw [he]
    intro c hc
    rcases List.mem_cons.mp hc with rfl | hc'
    · exact Or.inl rfl
    · rcases List.mem_singleton.mp hc' with rfl
      exact Or.inl rfl
  · obtain ⟨c0, t0, hlist, hc0, _, ht0, _, _⟩ := plainScalar_parts s hp
    have hdump : dumpScalarL s = c0 :: t0 := by
      unfold dumpScalarL
      rw [hlist]
      rfl
    rw [hdump]
    intro c hc
    rcases List.mem_cons.mp hc with rfl | hc'
    · exact Or.inr hc0
    · exact Or.inr (ht0 c hc')

theorem dump_no_nl (s : String) (hok : (s == "" || plainScalarB s) = true) :
    ∀ c ∈ dumpScalarL s, c ≠ '\n' := by
  intro c hc
  rcases dump_mem s hok c hc with rfl | hsc
  · decide
  · exact (scalarChar_ne c hsc).1

theorem headerLines_cons (e : String × YVal) (h : Header) :
    headerLines (e :: h) = entryLines e ++ headerLines h := by
  simp [headerLines]

theorem simpleHeader_tail (e : String × YVal) (h : Header) (hS : SimpleHeader (e :: h)) :
    SimpleHeader h :=
  ⟨fun p hp => hS.1 p (List.mem_cons_of_mem _ hp), (List.nodup_cons.mp hS.2).2⟩

theorem headerLines_good (h : Header) (hS : SimpleHeader h) :
    ∀ L ∈ headerLines h, goodLineB L = true := by
  induction h with
  | nil => intro L hL; simp [headerLines] at hL
  | cons e h' ih =>
    intro L hL
    rw [headerLines_cons] at hL
    rcases List.mem_append.mp hL with hL | hL
    · obtain ⟨k, v⟩ := e
      obtain ⟨hk, hv⟩ := hS.1 (k, v) (List.mem_cons_self _ _)
      obtain ⟨hkne, hkall⟩ := plainKey_parts k hk
      obtain ⟨c0, t0, hklist⟩ := List.exists_cons_of_ne_nil hkne
      have hc0 : keyCharB c0 = true := hkall c0 (by rw [hklist]; exact List.mem_cons_self _ _)
      have hkeyhead : ∀ X : List Char, (k.toList ++ X).headD ' ' = c0 := by
        intro X
        rw [hklist]
        rfl
      have hkeychars : ∀ (X : List Char), (∀ c ∈ X, c ≠ '\n') →
          ∀ c ∈ k.toList ++ X, c ≠ '\n' := by
        intro X hX c hc
        rcases List.mem_append.mp hc with hc | hc
        · exact (keyChar_ne c (hkall c hc)).2.2.1
        · exact hX c hc
      have hkeyne : ∀ X : List Char, k.toList ++ X ≠ [] := by
        intro X hx
        exact hkne (List.append_eq_nil.mp hx).1
      cases v with
      | str s =>
        rw [show entryLines (k, YVal.str s) = [k.toList ++ [':', ' '] ++ dumpScalarL s]
          from rfl] at hL
        rcases List.mem_singleton.mp hL with rfl
        rw [List.append_assoc]
        apply goodLineB_intro
        · exact hkeyne _
        · apply hkeychars
          intro c hc
          rcases List.mem_append.mp hc with hc | hc
          · rcases List.mem_cons.mp hc with rfl | hc'
            · decide
            · rcases List.mem_singleton.mp hc' with rfl
              decide
          · exact dump_no_nl s hv c hc
        · rw [hkeyhead]
          exact keyChar_not_space c0 hc0
        · rw [hkeyhead]
          intro heq
          exact absurd heq (keyChar_ne c0 hc0).2.1
      | nullY =>
        have hv' : valOKB YVal.nullY = true := hv
        exact absurd hv' (by decide)
      | strList l =>
        cases l with
        | nil =>
          rw [show entryLines (k, YVal.strList []) = [k.toList ++ [':', ' ', '[', ']']]
            from rfl] at hL
          rcases List.mem_singleton.mp hL with rfl
          apply goodLineB_intro
          · exact hkeyne _
          · apply hkeychars
            intro c hc
            fin_cases hc <;> decide
          · rw [hkeyhead]
            exact keyChar_not_space c0 hc0
          · rw [hkeyhead]
            intro heq
            exact absurd heq (keyChar_ne c0 hc0).2.1
        | cons x xs =>
          rw [show entryLines (k, YVal.strList (x :: xs))
              = (k.toList ++ [':'])
                :: (x :: xs).map (fun s => '-' :: ' ' :: dumpScalarL s) from rfl] at hL
          rcases List.mem_cons.mp hL with rfl | hL'
          · apply goodLineB_intro
            · exact hkeyne _
            · apply hkeychars
              intro c hc
              rcases List.mem_singleton.mp hc with rfl
              decide
            · rw [hkeyhead]
              exact keyChar_not_space c0 hc0
            · rw [hkeyhead]
              intro heq
              exact absurd heq (keyChar_ne c0 hc0).2.1
          · obtain ⟨s0, hs0mem, rfl⟩ := List.mem_map.mp hL'
            have hs0ok : (s0 == "" || plainScalarB s0) = true := by
              have hv' : (x :: xs).all (fun s => s == "" || plainScalarB s) = true := hv
              exact List.all_eq_true.mp hv' s0 hs0mem
            apply goodLineB_intro
            · simp
            · intro c hc
              rcases List.mem_cons.mp hc with rfl | hc'
              · decide
              · rcases List.mem_cons.mp hc' with rfl | hc''
                · decide
                · exact dump_no_nl s0 hs0ok c hc''
            · show pyIsSpace '-' = false
              decide
            · intro _
              rfl
    · exact ih (simpleHeader_tail e h' hS) L hL

theorem goodLine_head_not_space (L : List Char) (h : goodLineB L = true) :
    pyIsSpace (L.headD ' ') = false := by
  simp only [goodLineB, Bool.and_eq_true, Bool.not_eq_true'] at h
  exact h.1.2

theorem entryLines_ne_nil (e : String × YVal) : entryLines e ≠ [] := by
  obtain ⟨k, v⟩ := e
  cases v with
  | str s => simp [entryLines]
  | nullY => simp [entryLines]
  | strList l => cases l <;> simp [entryLines]

theorem joinLines_headerLines_head (h : Header) (hS : SimpleHeader h) (hne : h ≠ []) :
    ∃ c0 tl, joinLines (headerLines h) = c0 :: tl ∧ pyIsSpace c0 = false := by
  obtain ⟨e, h', rfl⟩ := List.exists_cons_of_ne_nil hne
  obtain ⟨L0, els, hEL⟩ := List.exists_cons_of_ne_nil (entryLines_ne_nil e)
  have hlines : headerLines (e :: h') = L0 :: (els ++ headerLines h') := by
    rw [headerLines_cons, hEL, List.cons_append]
  have hL0 : goodLineB L0 = true :=
    headerLines_good _ hS L0 (by rw [hlines]; exact List.mem_cons_self _ _)
  obtain ⟨c0, t0, rfl⟩ := List.exists_cons_of_ne_nil (goodLine_ne_nil _ hL0)
  refine ⟨c0, t0 ++ ['\n'] ++ joinLines (els ++ headerLines h'), ?_, ?_⟩
  · rw [hlines, joinLines_cons]
    simp
  · exact goodLine_head_not_space _ hL0

theorem firstSome_single {α β : Type} (f : α → Option β) (x : α) (b : β)
    (hx : f x = some b) : firstSome f [x] = some b := by
  simp [firstSome, hx]

theorem toList_asString_self (s : String) : s.toList.asString = s := rfl

theorem splitFM_render (h : Header) (body : String) (hS : SimpleHeader h) (hne : h ≠ [])
    (hb : (body.toList.takeWhile pyIsSpace).contains '\n' = false) :
    splitFM (render h body)
      = some (((joinLines (headerLines h)).dropLast).asString, body) := by
  obtain ⟨c0, tl, hJ, hc0⟩ := joinLines_headerLines_head h hS hne
  have hw : (('\n' :: (joinLines (headerLines h)
      ++ ('-' :: '-' :: '-' :: '\n' :: '\n' :: body.toList))).takeWhile pyIsSpace)
      = ['\n'] := by
    rw [hJ, List.cons_append, List.takeWhile_cons_of_pos (by decide),
      List.takeWhile_cons_of_neg (by simp [hc0])]
  have hfind : findSep (joinLines (headerLines h)
      ++ ('-' :: '-' :: '-' :: ('\n' :: '\n' :: body.toList)))
      = some ((joinLines (headerLines h)).dropLast, body.toList) := by
    apply findSep_join
    · intro hx
      rw [hx] at hJ
      exact absurd hJ.symm (List.cons_ne_nil c0 tl)
    · exact headerLines_good h hS
    · exact sepCheck_sep body.toList hb
  show (splitFMList ('-' :: '-' :: '-' :: '\n' :: (joinLines (headerLines h)
      ++ ('-' :: '-' :: '-' :: '\n' :: '\n' :: body.toList)))).map
        (fun p => (p.1.asString, p.2.asString)) = _
  rw [show splitFMList ('-' :: '-' :: '-' :: '\n' :: (joinLines (headerLines h)
      ++ ('-' :: '-' :: '-' :: '\n' :: '\n' :: body.toList)))
      = firstSome findSep (nlCandidates
          (('\n' :: (joinLines (headerLines h)
            ++ ('-' :: '-' :: '-' :: '\n' :: '\n' :: body.toList))).takeWhile pyIsSpace)
          (('\n' :: (joinLines (headerLines h)
            ++ ('-' :: '-' :: '-' :: '\n' :: '\n' :: body.toList))).drop
            ((('\n' :: (joinLines (headerLines h)
              ++ ('-' :: '-' :: '-' :: '\n' :: '\n' :: body.toList))).takeWhile
                pyIsSpace).length)))
      from rfl]
  rw [hw]
  rw [show (['\n'] : List Char).length = 1 from rfl, List.drop_one, List.tail_cons]
  rw [show nlCandidates ['\n'] (joinLines (headerLines h)
      ++ ('-' :: '-' :: '-' :: '\n' :: '\n' :: body.toList))
      = [joinLines (headerLines h) ++ ('-' :: '-' :: '-' :: '\n' :: '\n' :: body.toList)]
      by simp [nlCandidates]]
  rw [firstSome_single findSep _ _ hfind]
  rw [Option.map_some']
  rw [toList_asString_self]

/-! ## Reloading dumped headers: line splitting -/

theorem splitChar_no_nl (L : List Char) (h : L.contains '\n' = false) :
    splitCharL '\n' L = [L] := by
  induction L with
  | nil => rfl
  | cons c t ih =>
    have hc : c ≠ '\n' := forall_of_contains_eq_false _ _ h c (List.mem_cons_self _ _)
    have ht : t.contains '\n' = false :=
      contains_eq_false_of_forall _ _
        (fun x hx => forall_of_contains_eq_false _ _ h x (List.mem_cons_of_mem _ hx))
    unfold splitCharL
    rw [if_neg hc, ih ht]

theorem splitChar_append_nl (L X : List Char) (h : L.contains '\n' = false) :
    splitCharL '\n' (L ++ '\n' :: X) = L :: splitCharL '\n' X := by
  induction L with
  | nil =>
    show splitCharL '\n' ('\n' :: X) = [] :: splitCharL '\n' X
    rw [splitCharL]
    rw [if_pos rfl]
  | cons c t ih =>
    have hc : c ≠ '\n' := forall_of_contains_eq_false _ _ h c (List.mem_cons_self _ _)
    have ht : t.contains '\n' = false :=
      contains_eq_false_of_forall _ _
        (fun x hx => forall_of_contains_eq_false _ _ h x (List.mem_cons_of_mem _ hx))
    show splitCharL '\n' (c :: (t ++ '\n' :: X)) = _
    rw [splitCharL]
    rw [if_neg hc, ih ht]

theorem splitLines_join_dropLast (ls : List (List Char)) (hne : ls ≠ [])
    (hnl : ∀ L ∈ ls, L.contains '\n' = false) :
    splitCharL '\n' ((joinLines ls).dropLast) = ls := by
  induction ls with
  | nil => exact absurd rfl hne
  | cons L ls' ih =>
    cases ls' with
    | nil =>
      rw [joinLines_cons, show joinLines [] = [] from rfl, List.append_nil,
        List.dropLast_concat]
      exact splitChar_no_nl L (hnl L (List.mem_cons_self _ _))
    | cons L1 ls'' =>
      rw [joinLines_cons, dropLast_append_ne _ _ (joinLines_cons_ne_nil L1 ls''),
        List.append_assoc, List.singleton_append]
      rw [splitChar_append_nl L _ (hnl L (List.mem_cons_self _ _))]
      rw [ih (by simp) (fun L2 h2 => hnl L2 (List.mem_cons_of_mem _ h2))]

theorem goodLine_not_blank (L : List Char) (h : goodLineB L = true) :
    isBlankL L = false := by
  obtain ⟨c, t, rfl⟩ := List.exists_cons_of_ne_nil (goodLine_ne_nil L h)
  have hc : pyIsSpace c = false := by
    have := goodLine_head_not_space _ h
    simpa using this
  unfold isBlankL
  rw [List.all_cons, hc]
  rfl

/-! ## Reloading dumped headers: line shapes -/

theorem mem_of_getLast?_eq (l : List Char) (a : Char) (h : l.getLast? = some a) : a ∈ l := by
  induction l with
  | nil => simp at h
  | cons c t ih =>
    cases t with
    | nil =>
      simp only [List.getLast?_singleton, Option.some.injEq] at h
      rw [h]
      exact List.mem_cons_self _ _
    | cons d t' =>
      rw [List.getLast?_cons_cons] at h
      exact List.mem_cons_of_mem _ (ih h)

theorem dump_shape (s : String) (hok : (s == "" || plainScalarB s) = true) :
    ∃ c t, dumpScalarL s = c :: t ∧ pyIsSpace c = false
      ∧ (∀ x, (c :: t).getLast? = some x → pyIsSpace x = false) := by
  have hok' : s = "" ∨ plainScalarB s = true := by simpa using hok
  rcases hok' with rfl | hp
  · refine ⟨'\'', ['\''], rfl, by decide, ?_⟩
    intro x hx
    simp only [List.getLast?_cons_cons, List.getLast?_singleton, Option.some.injEq] at hx
    rw [← hx]
    decide
  · obtain ⟨c, t, hlist, hc, hcsp, ht, hlast, _⟩ := plainScalar_parts s hp
    have hdump : dumpScalarL s = c :: t := by
      unfold dumpScalarL
      rw [hlist]
      rfl
    refine ⟨c, t, hdump, ?_, ?_⟩
    · cases hq : pyIsSpace c
      · rfl
      · exact absurd (scalarChar_space c hc hq) (fun he => hcsp he)
    · intro x hx
      have hxmem : x ∈ c :: t := mem_of_getLast?_eq _ _ hx
      have hxsc : scalarCharB x = true := by
        rcases List.mem_cons.mp hxmem with rfl | hx'
        · exact hc
        · exact ht x hx'
      cases hq : pyIsSpace x
      · rfl
      · have := scalarChar_space x hxsc hq
        rw [this] at hx
        exact absurd hx hlast

theorem strip_self (v : List Char) (c : Char) (t : List Char) (hv : v = c :: t)
    (hh : pyIsSpace c = false) (hl : ∀ x, v.getLast? = some x → pyIsSpace x = false) :
    stripList pyIsSpace v = v := by
  subst hv
  unfold stripList
  rw [List.dropWhile_cons_of_neg (by simp [hh])]
  have hrev : (c :: t).reverse ≠ [] := by simp
  obtain ⟨y, ys, hys⟩ := List.exists_cons_of_ne_nil hrev
  have hy : (c :: t).getLast? = some y := by
    rw [← List.head?_reverse, hys]
    rfl
  rw [hys, List.dropWhile_cons_of_neg (by simp [hl y hy]), ← hys, List.reverse_reverse]

theorem strip_cons_space (v : List Char) (c : Char) (t : List Char) (hv : v = c :: t)
    (hh : pyIsSpace c = false) (hl : ∀ x, v.getLast? = some x → pyIsSpace x = false) :
    stripList pyIsSpace (' ' :: v) = v := by
  have hself := strip_self v c t hv hh hl
  unfold stripList at hself ⊢
  rw [List.dropWhile_cons_of_pos (by decide)]
  exact hself

theorem unquote_dump (s : String) (hok : (s == "" || plainScalarB s) = true) :
    (unquoteL (dumpScalarL s)).asString = s := by
  have hok' : s = "" ∨ plainScalarB s = true := by simpa using hok
  rcases hok' with rfl | hp
  · rfl
  · obtain ⟨c, t, hlist, hc, _, _, _, _⟩ := plainScalar_parts s hp
    have hdump : dumpScalarL s = c :: t := by
      unfold dumpScalarL
      rw [hlist]
      rfl
    rw [hdump]
    have hq := scalarChar_ne c hc
    have : unquoteL (c :: t) = c :: t := by
      unfold unquoteL
      split
      · next heq =>
        injection heq with h1 h2
        exact absurd h1 hq.2.2.1
      · next heq =>
        injection heq with h1 h2
        exact absurd h1 hq.2.2.2.1
      · rfl
    rw [this, ← hlist]
    exact toList_asString_self s

theorem itemStr_dump (s : String) (hok : (s == "" || plainScalarB s) = true) :
    itemStr ('-' :: ' ' :: dumpScalarL s) = s := by
  obtain ⟨c, t, hdump, hh, hl⟩ := dump_shape s hok
  unfold itemStr
  rw [show (('-' : Char) :: ' ' :: dumpScalarL s).drop 2 = dumpScalarL s from rfl]
  rw [strip_self (dumpScalarL s) c t hdump hh (by rw [hdump]; exact hl)]
  exact unquote_dump s hok

theorem takeWhile_key (k : String) (hall : ∀ c ∈ k.toList, keyCharB c = true)
    (rest : List Char) :
    (k.toList ++ ':' :: rest).takeWhile (fun x => x != ':') = k.toList := by
  rw [takeWhile_append_all (fun x => x != ':') _ _
      (fun c hc => by simpa using (keyChar_ne c (hall c hc)).1)]
  rw [List.takeWhile_cons_of_neg (by simp)]
  simp

theorem keySplit_generic (k : String) (hk : plainKeyB k = true) (rest : List Char) :
    keySplitL (k.toList ++ ':' :: rest)
      = (match rest with
         | [] => some (k.toList, none)
         | d :: _ =>
           if d == ' ' then some (k.toList, some (stripList pyIsSpace rest)) else none) := by
  obtain ⟨hkne, hall⟩ := plainKey_parts k hk
  obtain ⟨c0, t0, hklist⟩ := List.exists_cons_of_ne_nil hkne
  have hc0 : keyCharB c0 = true := hall c0 (by rw [hklist]; exact List.mem_cons_self _ _)
  have hcond : (pyIsSpace c0 || c0 == '\'' || c0 == '"') = false := by
    rw [keyChar_not_space c0 hc0, beq_false_of_ne (keyChar_ne c0 hc0).2.2.2.1,
      beq_false_of_ne (keyChar_ne c0 hc0).2.2.2.2]
    rfl
  have hshape : k.toList ++ ':' :: rest = c0 :: (t0 ++ ':' :: rest) := by
    rw [hklist]
    rfl
  have htw : (c0 :: (t0 ++ ':' :: rest)).takeWhile (fun x => x != ':') = k.toList := by
    rw [← hshape]
    exact takeWhile_key k hall rest
  have hdrop : (c0 :: (t0 ++ ':' :: rest)).drop k.toList.length = ':' :: rest := by
    rw [← hshape]
    exact List.drop_left _ _
  have hemp : k.toList.isEmpty = false := by
    rw [hklist]
    rfl
  rw [hshape, keySplitL]
  rw [if_neg (by rw [hcond]; exact Bool.false_ne_true)]
  simp only [htw, hdrop, hemp]
  simp only [Bool.false_eq_true, if_false]

theorem keySplit_str_line (k : String) (hk : plainKeyB k = true) (s : String)
    (hok : (s == "" || plainScalarB s) = true) :
    keySplitL (k.toList ++ [':', ' '] ++ dumpScalarL s)
      = some (k.toList, some (dumpScalarL s)) := by
  rw [show k.toList ++ [':', ' '] ++ dumpScalarL s
      = k.toList ++ ':' :: (' ' :: dumpScalarL s) from by simp]
  rw [keySplit_generic k hk]
  obtain ⟨c, t, hdump, hh, hl⟩ := dump_shape s hok
  show (if (' ' == ' ') then
      some (k.toList, some (stripList pyIsSpace (' ' :: dumpScalarL s)))
    else none) = _
  rw [if_pos (show (' ' == ' ') = true from rfl),
    strip_cons_space _ c t hdump hh (by rw [hdump]; exact hl)]

theorem keySplit_empty_list_line (k : String) (hk : plainKeyB k = true) :
    keySplitL (k.toList ++ [':', ' ', '[', ']']) = some (k.toList, some ['[', ']']) := by
  rw [show k.toList ++ [':', ' ', '[', ']'] = k.toList ++ ':' :: [' ', '[', ']'] from by simp]
  rw [keySplit_generic k hk]
  show (if (' ' == ' ') then
      some (k.toList, some (stripList pyIsSpace [' ', '[', ']']))
    else none) = _
  rw [if_pos (show (' ' == ' ') = true from rfl),
    show stripList pyIsSpace [' ', '[', ']'] = ['[', ']'] from by decide]

theorem keySplit_bare_line (k : String) (hk : plainKeyB k = true) :
    keySplitL (k.toList ++ [':']) = some (k.toList, none) := by
  rw [show k.toList ++ [':'] = k.toList ++ ':' :: ([] : List Char) from rfl]
  rw [keySplit_generic k hk]

theorem isItem_false_keyline (k : String) (hk : plainKeyB k = true) (X : List Char) :
    isItemL (k.toList ++ X) = false := by
  obtain ⟨hkne, hall⟩ := plainKey_parts k hk
  obtain ⟨c0, t0, hklist⟩ := List.exists_cons_of_ne_nil hkne
  have hc0 : keyCharB c0 = true := hall c0 (by rw [hklist]; exact List.mem_cons_self _ _)
  rw [show k.toList ++ X = c0 :: (t0 ++ X) from by rw [hklist]; rfl]
  unfold isItemL
  apply decide_eq_false
  intro heq
  rw [List.take_succ_cons] at heq
  injection heq with h1 _
  exact absurd h1 (keyChar_ne c0 hc0).2.1

theorem isItem_true_item (r : List Char) : isItemL ('-' :: ' ' :: r) = true := rfl

theorem containsColonSpace_eq_false (v : List Char) (h : ∀ c ∈ v, c ≠ ':') :
    containsColonSpace v = false := by
  induction v with
  | nil => rfl
  | cons c t ih =>
    show ((c == ':' && t.head? == some ' ') || containsColonSpace t) = false
    rw [beq_false_of_ne (h c (List.mem_cons_self _ _)),
      ih (fun x hx => h x (List.mem_cons_of_mem _ hx))]
    rfl

theorem badValue_dump_false (s : String) (hok : (s == "" || plainScalarB s) = true) :
    badValueL (dumpScalarL s) = false := by
  have hok' : s = "" ∨ plainScalarB s = true := by simpa using hok
  rcases hok' with rfl | hp
  · decide
  · obtain ⟨c, t, hlist, hc, _, ht, hlast, hdh⟩ := plainScalar_parts s hp
    have hdump : dumpScalarL s = c :: t := by
      unfold dumpScalarL
      rw [hlist]
      rfl
    have hmemchar : ∀ x ∈ c :: t, scalarCharB x = true := by
      intro x hx
      rcases List.mem_cons.mp hx with rfl | hx'
      · exact hc
      · exact ht x hx'
    have hccs : containsColonSpace (c :: t) = false :=
      containsColonSpace_eq_false _ (fun x hx => (scalarChar_ne x (hmemchar x hx)).2.1)
    have hgl : ((c :: t).getLast? == some ':') = false := by
      cases hq : (c :: t).getLast? with
      | none => rfl
      | some x =>
        have hxc : x ≠ ':' := (scalarChar_ne x (hmemchar x (mem_of_getLast?_eq _ _ hq))).2.1
        show (some x == some ':') = false
        exact beq_false_of_ne (fun hx => hxc (by injection hx))
    have hhd1 : ((c :: t).head? == some '[') = false := by
      show (some c == some '[') = false
      exact beq_false_of_ne
        (fun hx => (scalarChar_ne c hc).2.2.2.2.1 (by injection hx))
    have hhd2 : ((c :: t).head? == some '{') = false := by
      show (some c == some '{') = false
      exact beq_false_of_ne
        (fun hx => (scalarChar_ne c hc).2.2.2.2.2 (by injection hx))
    have hdash : (((c :: t).head? == some '-')
        && (((c :: t).drop 1).head? == some ' ')) = false := by
      by_cases hcd : c = '-'
      · have hth : t.head? ≠ some ' ' := hdh hcd
        have : (((c :: t).drop 1).head? == some ' ') = false := by
          show (t.head? == some ' ') = false
          exact beq_false_of_ne hth
        rw [this, Bool.and_false]
      · have : ((c :: t).head? == some '-') = false := by
          show (some c == some '-') = false
          exact beq_false_of_ne (fun hx => hcd (by injection hx))
        rw [this, Bool.false_and]
    rw [hdump]
    unfold badValueL
    rw [hccs, hgl, hhd1, hhd2, hdash]
    rfl

/-! ## Reparsing dumped headers with `parseLoop` -/

theorem entryLines_first_key (k : String) (v : YVal) (hk : plainKeyB k = true)
    (hv : valOKB v = true) :
    ∃ L els, entryLines (k, v) = L :: els ∧ isItemL L = false
      ∧ (keySplitL L).isSome = true := by
  cases v with
  | str s =>
    have hok : (s == "" || plainScalarB s) = true := hv
    refine ⟨k.toList ++ [':', ' '] ++ dumpScalarL s, [], rfl, ?_, ?_⟩
    · rw [List.append_assoc]
      exact isItem_false_keyline k hk _
    · rw [keySplit_str_line k hk s hok]
      rfl
  | nullY => exact absurd (show valOKB YVal.nullY = true from hv) (by decide)
  | strList l =>
    cases l with
    | nil =>
      refine ⟨k.toList ++ [':', ' ', '[', ']'], [], rfl, isItem_false_keyline k hk _, ?_⟩
      rw [keySplit_empty_list_line k hk]
      rfl
    | cons x xs =>
      refine ⟨k.toList ++ [':'], (x :: xs).map (fun s => '-' :: ' ' :: dumpScalarL s), rfl,
        isItem_false_keyline k hk _, ?_⟩
      rw [keySplit_bare_line k hk]
      rfl

theorem headerLines_head_key (h : Header) (hS : SimpleHeader h) (hne : h ≠ []) :
    ∃ L r, headerLines h = L :: r ∧ isItemL L = false ∧ (keySplitL L).isSome = true := by
  obtain ⟨e, h', rfl⟩ := List.exists_cons_of_ne_nil hne
  obtain ⟨k, v⟩ := e
  obtain ⟨hk, hv⟩ := hS.1 (k, v) (List.mem_cons_self _ _)
  obtain ⟨L, els, hEL, hni, hks⟩ := entryLines_first_key k v hk hv
  exact ⟨L, els ++ headerLines h',
    by rw [headerLines_cons, hEL, List.cons_append], hni, hks⟩

theorem headerLines_nonitem_or_nil (h : Header) (hS : SimpleHeader h) :
    headerLines h = [] ∨ ∃ L r, headerLines h = L :: r ∧ isItemL L = false := by
  cases h with
  | nil => exact Or.inl rfl
  | cons e h' =>
    obtain ⟨L, r, hLr, hni, _⟩ := headerLines_head_key (e :: h') hS (by simp)
    exact Or.inr ⟨L, r, hLr, hni⟩

theorem parseLoop_flush (lines : List (List Char)) (pend : Option (String × List String))
    (hni : lines = [] ∨ ∃ L r, lines = L :: r ∧ isItemL L = false) :
    parseLoop pend lines = (parseLoop none lines).map (fun hh => flushPend pend ++ hh) := by
  rcases hni with rfl | ⟨L, r, rfl, hL⟩
  · show some (flushPend pend) = (some (flushPend none)).map _
    simp [flushPend]
  · simp only [parseLoop, hL, Bool.false_eq_true, if_false]
    rcases hks : keySplitL L with _ | ⟨k, vo⟩
    · rfl
    · cases vo with
      | none =>
        cases hp : parseLoop (some (k.asString, [])) r <;> simp [hp, flushPend]
      | some v =>
        by_cases hv1 : v = ['[', ']']
        · simp only [hv1, if_pos rfl]
          cases hp : parseLoop none r <;> simp [hp, flushPend]
        · simp only [if_neg hv1]
          cases hbv : badValueL v
          · simp only [Bool.false_eq_true, if_false]
            cases hp : parseLoop none r <;> simp [hp, flushPend]
          · rfl

theorem parseLoop_items (its : List String)
    (hok : ∀ s ∈ its, (s == "" || plainScalarB s) = true)
    (k0 : String) (acc : List String) (rest : List (List Char)) :
    parseLoop (some (k0, acc)) ((its.map (fun s => '-' :: ' ' :: dumpScalarL s)) ++ rest)
      = parseLoop (some (k0, acc ++ its)) rest := by
  induction its generalizing acc with
  | nil => simp
  | cons s its' ih =>
    rw [List.map_cons, List.cons_append, parseLoop]
    simp only [isItem_true_item, if_true]
    rw [itemStr_dump s (hok s (List.mem_cons_self _ _))]
    rw [ih (fun x hx => hok x (List.mem_cons_of_mem _ hx)) (acc ++ [s])]
    rw [show (acc ++ [s]) ++ its' = acc ++ s :: its' from by simp]

theorem parseLoop_headerLines (h : Header) (hS : SimpleHeader h) :
    parseLoop none (headerLines h) = some h := by
  induction h with
  | nil => rfl
  | cons e h' ih =>
    obtain ⟨k, v⟩ := e
    obtain ⟨hk, hv⟩ := hS.1 (k, v) (List.mem_cons_self _ _)
    have hS' := simpleHeader_tail _ _ hS
    have ihh := ih hS'
    rw [headerLines_cons]
    cases v with
    | nullY => exact absurd (show valOKB YVal.nullY = true from hv) (by decide)
    | str s =>
      have hok : (s == "" || plainScalarB s) = true := hv
      rw [show entryLines (k, YVal.str s) = [k.toList ++ [':', ' '] ++ dumpScalarL s]
        from rfl]
      rw [List.singleton_append, parseLoop]
      have hni : isItemL (k.toList ++ [':', ' '] ++ dumpScalarL s) = false := by
        rw [List.append_assoc]
        exact isItem_false_keyline k hk _
      simp only [hni, Bool.false_eq_true, if_false]
      simp only [keySplit_str_line k hk s hok]
      have hne1 : dumpScalarL s ≠ ['[', ']'] := by
        intro hx
        have hmem := dump_mem s hok '[' (by rw [hx]; exact List.mem_cons_self _ _)
        rcases hmem with h1 | h2
        · exact absurd h1 (by decide)
        · exact absurd h2 (by decide)
      rw [if_neg hne1]
      rw [badValue_dump_false s hok]
      simp only [Bool.false_eq_true, if_false]
      rw [ihh, unquote_dump s hok]
      show some ([] ++ (k.toList.asString, YVal.str s) :: h') = some ((k, YVal.str s) :: h')
      rw [toList_asString_self k]
      rfl
    | strList l =>
      cases l with
      | nil =>
        rw [show entryLines (k, YVal.strList []) = [k.toList ++ [':', ' ', '[', ']']]
          from rfl]
        rw [List.singleton_append, parseLoop]
        have hni : isItemL (k.toList ++ [':', ' ', '[', ']']) = false :=
          isItem_false_keyline k hk _
        simp only [hni, Bool.false_eq_true, if_false]
        simp only [keySplit_empty_list_line k hk, if_true]
        rw [ihh]
        show some ([] ++ (k.toList.asString, YVal.strList []) :: h')
            = some ((k, YVal.strList []) :: h')
        rw [toList_asString_self k]
        rfl
      | cons x xs =>
        rw [show entryLines (k, YVal.strList (x :: xs))
            = (k.toList ++ [':'])
              :: (x :: xs).map (fun s => '-' :: ' ' :: dumpScalarL s) from rfl]
        rw [List.cons_append, parseLoop]
        have hni : isItemL (k.toList ++ [':']) = false := isItem_false_keyline k hk _
        simp only [hni, Bool.false_eq_true, if_false]
        simp only [keySplit_bare_line k hk]
        have hoks : ∀ s ∈ x :: xs, (s == "" || plainScalarB s) = true := by
          have hv' : (x :: xs).all (fun s => s == "" || plainScalarB s) = true := hv
          exact fun s hs => List.all_eq_true.mp hv' s hs
        rw [parseLoop_items (x :: xs) hoks (k.toList.asString) [] (headerLines h')]
        rw [parseLoop_flush (headerLines h') _ (headerLines_nonitem_or_nil h' hS')]
        rw [ihh]
        show some ([] ++ (flushPend (some (k.toList.asString, [] ++ x :: xs)) ++ h'))
            = some ((k, YVal.strList (x :: xs)) :: h')
        rw [toList_asString_self k]
        rfl

theorem yamlLoad_dump (h : Header) (hS : SimpleHeader h) (hne : h ≠ []) :
    yamlLoadL ((joinLines (headerLines h)).dropLast) = YamlRes.val (YamlVal.map h) := by
  have hgood := headerLines_good h hS
  have hnl : ∀ L ∈ headerLines h, L.contains '\n' = false :=
    fun L hL => goodLine_no_nl L (hgood L hL)
  obtain ⟨L0, r0, hLr, hni0, hks0⟩ := headerLines_head_key h hS hne
  have hlsne : headerLines h ≠ [] := by rw [hLr]; simp
  have hsplit : splitLinesL ((joinLines (headerLines h)).dropLast) = headerLines h :=
    splitLines_join_dropLast _ hlsne hnl
  have hfilter : (headerLines h).filter (fun L => !(isBlankL L)) = headerLines h :=
    List.filter_eq_self.mpr (fun L hL => by rw [goodLine_not_blank L (hgood L hL)]; rfl)
  have hkeyne : nonKeyNonItem L0 = false := by
    unfold nonKeyNonItem
    rcases hkk : keySplitL L0 with _ | p
    · rw [hkk] at hks0
      simp at hks0
    · rfl
  have hall : (headerLines h).all nonKeyNonItem = false := by
    rw [hLr, List.all_cons, hkeyne]
    rfl
  have hemp : (headerLines h).isEmpty = false := by
    rw [hLr]
    rfl
  unfold yamlLoadL
  rw [hsplit, hfilter]
  dsimp only
  rw [hemp, hall]
  simp only [Bool.false_eq_true, if_false]
  rw [parseLoop_headerLines h hS]

/-! ## Re-merging identical metadata is the identity -/

theorem hFind_any (h : Header) (k : String) (v : YVal) (hf : hFind h k = some v) :
    h.any (fun p => p.1 = k) = true := by
  induction h with
  | nil => simp [hFind] at hf
  | cons p t ih =>
    obtain ⟨a, b⟩ := p
    rw [List.any_cons]
    by_cases ha : a = k
    · simp [ha]
    · simp only [hFind] at hf
      rw [if_neg ha] at hf
      rw [ih hf]
      simp

theorem mapSet_skip (t : Header) (k : String) (v : YVal) (h : ∀ p ∈ t, p.1 ≠ k) :
    t.map (fun p => if p.1 = k then (k, v) else p) = t := by
  induction t with
  | nil => rfl
  | cons q t' ih =>
    rw [List.map_cons, if_neg (h q (List.mem_cons_self _ _)),
      ih (fun p hp => h p (List.mem_cons_of_mem _ hp))]

theorem mapSet_id (h : Header) (k : String) (v : YVal) (hf : hFind h k = some v)
    (hnd : (h.map Prod.fst).Nodup) :
    h.map (fun p => if p.1 = k then (k, v) else p) = h := by
  induction h with
  | nil => rfl
  | cons p t ih =>
    obtain ⟨a, b⟩ := p
    rw [List.map_cons] at hnd ⊢
    have hnd' := List.nodup_cons.mp hnd
    by_cases ha : a = k
    · subst ha
      simp only [hFind, if_true] at hf
      injection hf with hbv
      rw [show (if ((a, b) : String × YVal).1 = a then (a, v) else (a, b)) = (a, b) from by
        rw [hbv]; simp]
      rw [mapSet_skip t a v (fun p hp hpk => hnd'.1 (by
        have hm : p.1 ∈ List.map Prod.fst t := List.mem_map_of_mem Prod.fst hp
        rw [hpk] at hm
        exact hm))]
    · simp only [hFind] at hf
      rw [if_neg ha] at hf
      rw [if_neg ha, ih hf hnd'.2]

theorem pySet_id (h : Header) (k : String) (v : YVal) (hf : hFind h k = some v)
    (hnd : (h.map Prod.fst).Nodup) : pySet h k v = h := by
  unfold pySet
  rw [if_pos (hFind_any h k v hf)]
  exact mapSet_id h k v hf hnd

theorem merged_id (h : Header) (d : String) (kws : List String)
    (hdesc : hFind h "description" = some (YVal.str d))
    (hkw : hFind h "keywords" = some (YVal.strList kws))
    (hnd : (h.map Prod.fst).Nodup) :
    mergedHeader h d kws = h := by
  unfold mergedHeader
  rw [pySet_id h _ _ hdesc hnd, pySet_id h _ _ hkw hnd]

/-! ## C4 -/

/-- C4 (amended): for a tool-written file whose header lies in the plain
subset and whose body's leading whitespace contains no newline, re-splitting
the file and re-merging the identical generated description and keywords
writes back byte-identical content. -/
theorem c4_roundtrip_amended (h : Header) (body t d ks : String)
    (hS : SimpleHeader h)
    (hdesc : hFind h "description" = some (YVal.str d))
    (hkw : hFind h "keywords" = some (YVal.strList (parseKeywords ks)))
    (hf : extractFields t = (d, ks)) (hd : d ≠ "") (hk : ks ≠ "")
    (hb : (body.toList.takeWhile pyIsSpace).contains '\n' = false) :
    splitFM (render h body)
      = some (((joinLines (headerLines h)).dropLast).asString, body)
    ∧ processFile (some (render h body)) (GenOutcome.text t) false
      = FileResult.written (render h body) := by
  have hne : h ≠ [] := by
    intro hx
    rw [hx] at hdesc
    exact absurd hdesc (by simp [hFind])
  have hsp := splitFM_render h body hS hne hb
  have hld : yamlLoad (((joinLines (headerLines h)).dropLast).asString)
      = YamlRes.val (YamlVal.map h) := by
    show yamlLoadL ((((joinLines (headerLines h)).dropLast).asString).toList)
        = YamlRes.val (YamlVal.map h)
    rw [show (((joinLines (headerLines h)).dropLast).asString).toList
        = (joinLines (headerLines h)).dropLast from rfl]
    exact yamlLoad_dump h hS hne
  have hnef : ¬(d = "" ∨ ks = "") := by
    intro hx
    rcases hx with hx | hx
    · exact hd hx
    · exact hk hx
  refine ⟨hsp, ?_⟩
  simp only [processFile, hsp, hld, pyOrEmpty, Bool.false_eq_true, if_false, afterSplit, hf]
  rw [if_neg hnef]
  rw [merged_id h d (parseKeywords ks) hdesc hkw hS.2]

theorem c4_roundtrip_amended_witness :
    processFile
        (some (render [("title", YVal.str "T"), ("description", YVal.str "d"),
          ("keywords", YVal.strList ["a", "b"])] "hello"))
        (GenOutcome.text "description: d\nkeywords: [a, b]") false
      = FileResult.written
          (render [("title", YVal.str "T"), ("description", YVal.str "d"),
            ("keywords", YVal.strList ["a", "b"])] "hello") :=
  (c4_roundtrip_amended
    [("title", YVal.str "T"), ("description", YVal.str "d"),
      ("keywords", YVal.strList ["a", "b"])]
    "hello" "description: d\nkeywords: [a, b]" "d" "[a, b]"
    ⟨by decide, by decide⟩
    (by decide) (by decide) (by decide) (by decide) (by decide) (by decide)).2

/-- C4 counterexample: a file the tool itself wrote (first conjunct), whose
body begins with a newline; re-splitting and re-merging the identical
description and keywords produces different bytes — the split's trailing
`\s*\n` absorbs the body's leading newline into the blank-line separator. -/
theorem c4_roundtrip_counterexample :
    processFile (some "\nX") (GenOutcome.text "description: d\nkeywords: [a]") false
      = FileResult.written "---\ndescription: d\nkeywords:\n- a\n---\n\n\nX"
    ∧ processFile (some "---\ndescription: d\nkeywords:\n- a\n---\n\n\nX")
        (GenOutcome.text "description: d\nkeywords: [a]") false
      = FileResult.written "---\ndescription: d\nkeywords:\n- a\n---\n\nX"
    ∧ ("---\ndescription: d\nkeywords:\n- a\n---\n\nX" : String)
      ≠ "---\ndescription: d\nkeywords:\n- a\n---\n\n\nX" := by
  refine ⟨by decide, by decide, by decide⟩
